import Mathlib

/-!
Verification of the go-nostr core: the NIP-44 payload codec and shared-secret
derivation (`nip44/nip44.go`) and the event canonicalizer / identifier
(`event.go`).  Strings are modelled as lists of byte values (`List Nat`, each
element < 256, the UTF-8 bytes of the Go string); Go's machine integers that
matter here (timestamps, kinds) are modelled as `Int`.  Fallible Go functions
return `Except`; Go code that can panic on some input is modelled with an
explicit `panic` outcome (a run-time index-out-of-range termination), kept
separate from returned error values.
-/

/- ### Generic byte/number helpers -/

/-- Big-endian interpretation of a byte list as a natural number. -/
def beNat (bs : List Nat) : Nat :=
  bs.foldl (fun a b => a * 256 + b) 0

/-- Big-endian byte rendering of `n`, `k` bytes wide (truncating above `256^k`).
Structural fuel recursion so that it reduces in the kernel. -/
def natToBeAux : Nat → Nat → List Nat
  | 0, _ => []
  | k + 1, n => natToBeAux k (n / 256) ++ [n % 256]

/-- A natural number as exactly 32 big-endian bytes (as Go `[32]byte` renderings do). -/
def natToBe32 (n : Nat) : List Nat :=
  natToBeAux 32 n

/-- Lowercase hex digit character code for a nibble, the table
`0123456789abcdef` used both by Go's `encoding/hex` and by `CheckID`. -/
def hexDigit (n : Nat) : Nat :=
  if n < 10 then 48 + n else 87 + n

/-- Hex rendering of a byte list, lowercase (Go `hex.EncodeToString`). -/
def hexEncodeBytes (bs : List Nat) : List Nat :=
  bs.flatMap fun b => [hexDigit (b / 16), hexDigit (b % 16)]

/-- Value of one hex digit character (Go `encoding/hex`, accepts both cases). -/
def hexVal (c : Nat) : Option Nat :=
  if 48 ≤ c ∧ c ≤ 57 then some (c - 48)
  else if 97 ≤ c ∧ c ≤ 102 then some (c - 97 + 10)
  else if 65 ≤ c ∧ c ≤ 70 then some (c - 65 + 10)
  else none

/-- Go `hex.DecodeString`: pairs of hex digits to bytes; odd length or an
invalid digit is an error (`none`). -/
def hexDecodeBytes : List Nat → Option (List Nat)
  | [] => some []
  | a :: b :: rest =>
    match hexVal a, hexVal b with
    | some x, some y => (hexDecodeBytes rest).map fun t => (x * 16 + y) :: t
    | _, _ => none
  | [_] => none

/-- Decimal digit characters of `n` (no sign, no leading zeros), as produced by
Go's `strconv` and `fmt` verbs for non-negative integers.  Fuel recursion keeps
it structural; `n` itself is always enough fuel. -/
def decimalDigitsAux : Nat → Nat → List Nat
  | 0, n => [48 + n % 10]
  | fuel + 1, n => if n < 10 then [48 + n] else decimalDigitsAux fuel (n / 10) ++ [48 + n % 10]

/-- Decimal rendering of a natural number as character codes. -/
def decimalDigits (n : Nat) : List Nat :=
  decimalDigitsAux n n

/-- Numeric value of a decimal digit string (for specification purposes). -/
def decimalValue (ds : List Nat) : Nat :=
  ds.foldl (fun a c => a * 10 + (c - 48)) 0

/-- Go `strconv.FormatInt`/`strconv.Itoa`: decimal with a leading minus sign
for negatives. -/
def intDecimal (n : Int) : List Nat :=
  if n < 0 then 45 :: decimalDigits n.natAbs else decimalDigits n.toNat

/- ### Standard base64 (Go `encoding/base64` StdEncoding) -/

/-- Character code of a 6-bit group in the standard base64 alphabet
`A-Z a-z 0-9 + /`. -/
def b64char (n : Nat) : Nat :=
  if n < 26 then 65 + n
  else if n < 52 then 97 + (n - 26)
  else if n < 62 then 48 + (n - 52)
  else if n = 62 then 43
  else 47

/-- Standard base64 encoding with padding (`=` is code 61), in 3-byte chunks. -/
def base64Encode : List Nat → List Nat
  | [] => []
  | [a] => [b64char (a / 4), b64char (a % 4 * 16), 61, 61]
  | [a, b] => [b64char (a / 4), b64char (a % 4 * 16 + b / 16), b64char (b % 16 * 4), 61]
  | a :: b :: c :: rest =>
    b64char (a / 4) :: b64char (a % 4 * 16 + b / 16) ::
      b64char (b % 16 * 4 + c / 64) :: b64char (c % 64) :: base64Encode rest

/-- Value of one base64 alphabet character. -/
def b64val (c : Nat) : Option Nat :=
  if 65 ≤ c ∧ c ≤ 90 then some (c - 65)
  else if 97 ≤ c ∧ c ≤ 122 then some (26 + (c - 97))
  else if 48 ≤ c ∧ c ≤ 57 then some (52 + (c - 48))
  else if c = 43 then some 62
  else if c = 47 then some 63
  else none

/-- Base64 decoding of a newline-free character stream: groups of four
characters, with `=` padding allowed only to close the final group. -/
def base64DecodeRaw : List Nat → Option (List Nat)
  | [] => some []
  | a :: b :: c :: d :: rest =>
    match b64val a, b64val b with
    | some va, some vb =>
      if c = 61 then
        if d = 61 ∧ rest = [] then some [va * 4 + vb / 16] else none
      else
        match b64val c with
        | some vc =>
          if d = 61 then
            if rest = [] then some [va * 4 + vb / 16, vb % 16 * 16 + vc / 4] else none
          else
            match b64val d with
            | some vd =>
              (base64DecodeRaw rest).map fun t =>
                (va * 4 + vb / 16) :: (vb % 16 * 16 + vc / 4) :: (vc % 4 * 64 + vd) :: t
            | none => none
        | none => none
    | _, _ => none
  | _ => none

/-- Go `base64.StdEncoding.DecodeString`: carriage returns and newlines are
ignored wherever they appear, then the stream is decoded in groups of four. -/
def base64Decode (s : List Nat) : Option (List Nat) :=
  base64DecodeRaw (s.filter fun c => c != 13 && c != 10)

/- ### NIP-44 payload codec (`nip44/nip44.go`) -/

namespace Nip44

/-- A keystream model for `chacha20.NewUnauthenticatedCipher`: byte `i` of the
XChaCha20 keystream for a given key and nonce.  The cipher is an external
library; the codec only relies on the keystream being a deterministic function
of `(key, nonce)` producing bytes, so it is abstracted as a parameter of the
embedded functions. -/
def Keystream : Type :=
  List Nat → List Nat → Nat → Nat

/-- XOR of a message with the keystream starting at position `i`
(`cipher.XORKeyStream` on a fresh cipher is position `0`). -/
def xorKeystream (ks : Nat → Nat) : Nat → List Nat → List Nat
  | _, [] => []
  | i, m :: ms => (m ^^^ ks i) :: xorKeystream ks (i + 1) ms

/-- Errors of the encrypt path (`chacha20.NewUnauthenticatedCipher` rejects
keys that are not 32 bytes and nonces that are not 12 or 24 bytes). -/
inductive EncErr : Type
  | cipherInit : EncErr
deriving DecidableEq, Repr

/-- Errors of the decrypt path, tagged with the data the Go error message
formats in. -/
inductive DecErr : Type
  | invalidBase64 : DecErr
  | unknownVersion (v : Nat) : DecErr
  | tooSmall (n : Nat) : DecErr
  | cipherInit : DecErr
deriving DecidableEq, Repr

/-- Outcome of a Go function that returns `(value, error)` but can also panic
on some inputs: the panic outcome is a run-time termination, distinct from any
returned error value. -/
inductive GoResult (α : Type) : Type
  | ok (a : α) : GoResult α
  | err (e : DecErr) : GoResult α
  | panic : GoResult α
deriving DecidableEq, Repr

/-- Translation of `encryptWithNonce`: XOR the message with the keystream,
frame as `1 ‖ nonce[24] ‖ ciphertext` (the 24-byte region is zero-filled
beyond the copied nonce, as Go's `make`+`copy` leaves it), and base64-encode.
The cipher constructor's length validation is the external library's. -/
def encryptWithNonce (ksf : Keystream) (message key nonce : List Nat) :
    Except EncErr (List Nat) :=
  if key.length = 32 ∧ (nonce.length = 12 ∨ nonce.length = 24) then
    let cipher := xorKeystream (ksf key nonce) 0 message
    let payload := 1 :: (nonce.take 24 ++ List.replicate (24 - nonce.length) 0) ++ cipher
    Except.ok (base64Encode payload)
  else
    Except.error EncErr.cipherInit

/-- Translation of `Encrypt`: draws a fresh random 24-byte `nonce` (modelled
as an explicit argument, the bytes read from `crypto/rand`) and defers to
`encryptWithNonce`. -/
def Encrypt (ksf : Keystream) (message key nonce : List Nat) :
    Except EncErr (List Nat) :=
  encryptWithNonce ksf message key nonce

/-- Translation of `Decrypt`: base64-decode, read the version byte `data[0]`
(an index taken before any length check, so an empty decoding is an
out-of-range panic), require more than 25 bytes, split nonce and ciphertext,
and XOR with the keystream. -/
def Decrypt (ksf : Keystream) (payload key : List Nat) : GoResult (List Nat) :=
  match base64Decode payload with
  | none => GoResult.err DecErr.invalidBase64
  | some data =>
    match data with
    | [] => GoResult.panic
    | d0 :: _ =>
      if d0 ≠ 1 then GoResult.err (DecErr.unknownVersion d0)
      else if data.length ≤ 25 then GoResult.err (DecErr.tooSmall data.length)
      else
        let nonce := (data.drop 1).take 24
        let msg := data.drop 25
        if key.length = 32 then GoResult.ok (xorKeystream (ksf key nonce) 0 msg)
        else GoResult.err DecErr.cipherInit

/- ### Shared secret derivation (`ComputeSharedSecret` in `nip44/nip44.go`) -/

/-- The secp256k1 base field prime. -/
def secpP : Nat := 2 ^ 256 - 2 ^ 32 - 977

/-- The secp256k1 group order (the modulus of private scalars). -/
def secpN : Nat :=
  115792089237316195423570985008687907852837564279074904382605163141518161494337

/-- Error kinds of `ComputeSharedSecret`, one per `return nil, err` site. -/
inductive SecretErr : Type
  | decodeSk : SecretErr
  | decodePub : SecretErr
  | parsePub : SecretErr
deriving DecidableEq, Repr

section SharedSecret

/- The curve arithmetic lives in the external `btcec` library. It is modelled
abstractly: `Point` is the secp256k1 group (an additive commutative group),
`xonly P` the x-coordinate of `P` as a natural number, and `liftEven x` the
compressed-point decoding of prefix byte `02` — the on-curve point with
x-coordinate `x` and even y, or `none` when `x` is not an x-coordinate of a
curve point. The theorems take the library's documented facts as hypotheses:
negation keeps the x-coordinate, x-coordinates are below the field prime, and
decoding the x-coordinate of a real point returns that point up to sign. -/
variable {Point : Type} [AddCommGroup Point]

/-- Modelled from the external `btcec.ParsePubKey` on the 33-byte input built
by `ComputeSharedSecret`: requires length 33; the leading byte written by the
code is `02`, so the decoder looks up the even-y point for the 32-byte
big-endian x-coordinate, rejecting coordinates at or above the field prime and
x-values not on the curve. -/
def ParsePubKey (liftEven : Nat → Option Point) (bytes : List Nat) : Option Point :=
  if bytes.length = 33 then
    match bytes with
    | 2 :: xs =>
      let x := beNat xs
      if x < secpP then liftEven x else none
    | _ => none
  else none

/-- Translation of `ComputeSharedSecret`: hex-decode the private key and
(prefixed with `02`, character codes `[48, 50]`) the public key, parse the
point, multiply by the scalar, and hash the x-coordinate bytes of the result
with SHA-256 (abstracted as `sha256f`).  `btcec.PrivKeyFromBytes` never fails:
it keeps the first 32 bytes and reduces the big-endian value modulo the group
order. -/
def ComputeSharedSecret (xonly : Point → Nat) (liftEven : Nat → Option Point)
    (sha256f : List Nat → List Nat) (pub sk : List Nat) :
    Except SecretErr (List Nat) :=
  match hexDecodeBytes sk with
  | none => Except.error SecretErr.decodeSk
  | some skBytes =>
    let d : Nat := beNat (skBytes.take 32) % secpN
    match hexDecodeBytes ([48, 50] ++ pub) with
    | none => Except.error SecretErr.decodePub
    | some pubBytes =>
      match ParsePubKey liftEven pubBytes with
      | none => Except.error SecretErr.parsePub
      | some P => Except.ok (sha256f (natToBe32 (xonly (d • P))))

end SharedSecret

end Nip44

/- ### Event model and canonical serialization (`event.go`) -/

/-- Translation of the `Event` struct; strings are byte lists, `CreatedAt`
(Go `Timestamp` = `int64`) and `Kind` (Go `int`) are integers. -/
structure Event : Type where
  ID : List Nat
  PubKey : List Nat
  CreatedAt : Int
  Kind : Int
  Tags : List (List (List Nat))
  Content : List Nat
  Sig : List Nat
deriving DecidableEq, Repr

/-- Modelled from the spec: the body of the string-escaping routine
`escapeString` referenced by `serializeEventInto` is not among the provided
sources; per §4.3 it escapes the quote and backslash characters, control
characters (shortcuts for backspace, tab, newline, form feed, carriage return,
`\u00XX` otherwise) and the Unicode line/paragraph separators U+2028/U+2029
(UTF-8 `e2 80 a8` / `e2 80 a9`), and leaves every other byte as is. -/
def escBody : List Nat → List Nat
  | [] => []
  | 34 :: r => 92 :: 34 :: escBody r
  | 92 :: r => 92 :: 92 :: escBody r
  | 8 :: r => 92 :: 98 :: escBody r
  | 9 :: r => 92 :: 116 :: escBody r
  | 10 :: r => 92 :: 110 :: escBody r
  | 12 :: r => 92 :: 102 :: escBody r
  | 13 :: r => 92 :: 114 :: escBody r
  | 226 :: 128 :: 168 :: r => 92 :: 117 :: 50 :: 48 :: 50 :: 56 :: escBody r
  | 226 :: 128 :: 169 :: r => 92 :: 117 :: 50 :: 48 :: 50 :: 57 :: escBody r
  | b :: r =>
    if b < 32 then 92 :: 117 :: 48 :: 48 :: hexDigit (b / 16) :: hexDigit (b % 16) :: escBody r
    else b :: escBody r

/-- Modelled from the spec: `escapeString` emits an opening quote, the escaped
body, and a closing quote (its `dst` accumulator is made explicit by
concatenation at the call sites). -/
def escString (s : List Nat) : List Nat :=
  34 :: escBody s ++ [34]

/-- Comma-separated concatenation, the `i > 0` comma discipline of the
serialization loops. -/
def commaJoin : List (List Nat) → List Nat
  | [] => []
  | [x] => x
  | x :: xs => x ++ 44 :: commaJoin xs

/-- The tags section of `serializeEventInto`: a bracketed list of bracketed
tags, each item passed through the escaping routine. -/
def serializeTags (tags : List (List (List Nat))) : List Nat :=
  91 :: commaJoin (tags.map fun tag => 91 :: commaJoin (tag.map escString) ++ [93]) ++ [93]

/-- Translation of `serializeEventInto`: the header `[0,"` (codes
`[91, 48, 44, 34]`), the pubkey bytes appended verbatim, `",` then the decimal
timestamp, kind, the tags section, and the escaped content, closing with `]`. -/
def serializeEventInto (evt : Event) (dst : List Nat) : List Nat :=
  dst ++ [91, 48, 44, 34] ++ evt.PubKey ++ [34, 44] ++
    intDecimal evt.CreatedAt ++ [44] ++ intDecimal evt.Kind ++ [44] ++
    serializeTags evt.Tags ++ [44] ++ escString evt.Content ++ [93]

/-- Translation of `Serialize`: serialization into a fresh buffer (the
preallocation size heuristic does not affect the produced bytes). -/
def Serialize (evt : Event) : List Nat :=
  serializeEventInto evt []

/-- The byte sequence of the constant format prefix
`"\x19Ethereum Signed Message:\n"` used by `GetID` and `CheckID`. -/
def msgHeader : List Nat :=
  [25, 69, 116, 104, 101, 114, 101, 117, 109, 32, 83, 105, 103, 110, 101, 100,
   32, 77, 101, 115, 115, 97, 103, 101, 58, 10]

/-- The hash input of `GetID`/`CheckID`: the constant header, the decimal byte
count of the serialized event (no separator), then the serialized bytes —
the `fmt.Sprintf` with verbs `%d%s`. -/
def hashInput (evt : Event) : List Nat :=
  msgHeader ++ decimalDigits (Serialize evt).length ++ Serialize evt

/-- Translation of `GetID`: Keccak-256 (the external library digest, abstracted
as `keccak`, a 32-byte output) of the prefixed message, rendered in lowercase
hex. -/
def GetID (keccak : List Nat → List Nat) (evt : Event) : List Nat :=
  hexEncodeBytes (keccak (hashInput evt))

/-- The comparison loop of `CheckID`: for each hash byte, compare the high
nibble character and then the low nibble character against the next two bytes
of the stored ID, indexing the ID without a bounds check, so running out of ID
bytes is an out-of-range panic (`none`).  Go string indexing happens inside
each comparison, so a mismatching high nibble returns `false` before the low
nibble index is evaluated. -/
def checkNibbles : List Nat → List Nat → Option Bool
  | [], _ => some true
  | b :: hs, c1 :: c2 :: rest =>
    if hexDigit (b / 16) ≠ c1 then some false
    else if hexDigit (b % 16) ≠ c2 then some false
    else checkNibbles hs rest
  | b :: _, [c1] => if hexDigit (b / 16) ≠ c1 then some false else none
  | _ :: _, [] => none

/-- Translation of `CheckID`: recompute the digest of the prefixed message and
compare it nibble-by-nibble against `evt.ID` (`some` result, or `none` for the
index-out-of-range panic on IDs shorter than 64 bytes). -/
def CheckID (keccak : List Nat → List Nat) (evt : Event) : Option Bool :=
  checkNibbles (keccak (hashInput evt)) evt.ID

/- ### Concrete instances used by witnesses and counterexamples -/

/-- A concrete keystream (every keystream byte `0`), standing in for one
XChaCha20 keystream in closed statements. -/
def ksf0 : Nip44.Keystream := fun _ _ _ => 0

/-- A concrete 32-byte key. -/
def key0 : List Nat := List.replicate 32 0

/-- A concrete 24-byte nonce. -/
def nonce0 : List Nat := List.replicate 24 0

/-- A concrete 32-byte-output digest function standing in for Keccak-256 in
closed statements. -/
def keccak0 : List Nat → List Nat := fun _ => List.replicate 32 0

/-- A concrete 32-byte-output digest function standing in for SHA-256 in
closed statements. -/
def sha0 : List Nat → List Nat := fun _ => List.replicate 32 1

/-- The §8 canonicalization example: pubkey of 64 `a` characters, timestamp
1700000000, kind 1, tags `[["e","abc"]]`, content `hi`. -/
def evt5 : Event :=
  { ID := [], PubKey := List.replicate 64 97, CreatedAt := 1700000000, Kind := 1,
    Tags := [[[101], [97, 98, 99]]], Content := [104, 105], Sig := [] }

/-- The expected canonical bytes of `evt5`:
`[0,"aaaa…a",1700000000,1,[["e","abc"]],"hi"]`. -/
def serial5 : List Nat :=
  [91, 48, 44, 34] ++ List.replicate 64 97 ++
    [34, 44, 49, 55, 48, 48, 48, 48, 48, 48, 48, 48, 44, 49, 44,
     91, 91, 34, 101, 34, 44, 34, 97, 98, 99, 34, 93, 93, 44, 34, 104, 105, 34, 93]

/-- The example event carrying the ID that `keccak0` makes correct
(64 `0` characters). -/
def evtGood : Event := { evt5 with ID := List.replicate 64 48 }

/-- The example event whose stored ID is the correct 64 characters followed by
two junk bytes (`zz`). -/
def evtJunk : Event := { evt5 with ID := List.replicate 64 48 ++ [122, 122] }

/-- A small concrete additive group standing in for the secp256k1 point group
in closed statements: `ZMod 7`, with the residue class of least absolute value
playing the role of the x-coordinate (so that negation preserves it). -/
def xonly7 : ZMod 7 → Nat := fun z => min z.val (7 - z.val)

/-- The even-y compressed-point decoder of the `ZMod 7` stand-in: `x` lifts to
the residue `x` when `x` is a realizable coordinate (at most 3). -/
def lift7 : Nat → Option (ZMod 7) := fun x => if x ≤ 3 then some (x : ZMod 7) else none

/-- Generator of the `ZMod 7` stand-in group. -/
def G7 : ZMod 7 := 1

/-- Public key hex (stand-in model) of the scalar 1. -/
def pubA7 : List Nat := hexEncodeBytes (natToBe32 (xonly7 ((1 : Nat) • G7)))

/-- Public key hex (stand-in model) of the scalar 2. -/
def pubB7 : List Nat := hexEncodeBytes (natToBe32 (xonly7 ((2 : Nat) • G7)))

/-- Private key hex of the scalar 1. -/
def skA7 : List Nat := hexEncodeBytes (natToBe32 1)

/-- Private key hex of the scalar 2. -/
def skB7 : List Nat := hexEncodeBytes (natToBe32 2)

/-- A 64-hex-character public key whose coordinate (2) is realizable in the
stand-in model. -/
def pub2g : List Nat := hexEncodeBytes (natToBe32 2)

/-- The 64-hex-character private key whose value is exactly the group order —
outside the valid scalar range `[1, N-1]`. -/
def skNg : List Nat := hexEncodeBytes (natToBe32 Nip44.secpN)

/- ### Helper lemmas: decimal rendering -/

theorem decimalDigitsAux_spec :
    ∀ fuel n, n ≤ fuel →
      decimalValue (decimalDigitsAux fuel n) = n ∧
        ∀ d ∈ decimalDigitsAux fuel n, 48 ≤ d ∧ d ≤ 57 := by
  intro fuel
  induction fuel with
  | zero =>
    intro n hn
    interval_cases n
    exact ⟨rfl, by decide⟩
  | succ k ih =>
    intro n hn
    by_cases h10 : n < 10
    · simp only [decimalDigitsAux, if_pos h10]
      refine ⟨?_, ?_⟩
      · simp [decimalValue]
      · intro d hd
        simp only [List.mem_singleton] at hd
        omega
    · simp only [decimalDigitsAux, if_neg h10]
      have hdiv : n / 10 ≤ k := by omega
      obtain ⟨ihv, ihd⟩ := ih (n / 10) hdiv
      refine ⟨?_, ?_⟩
      · simp only [decimalValue, List.foldl_append, List.foldl_cons, List.foldl_nil]
        simp only [decimalValue] at ihv
        rw [ihv]
        omega
      · intro d hd
        rcases List.mem_append.mp hd with h | h
        · exact ihd d h
        · simp only [List.mem_singleton] at h
          omega

theorem decimalValue_decimalDigits (n : Nat) :
    decimalValue (decimalDigits n) = n :=
  (decimalDigitsAux_spec n n le_rfl).1

theorem decimalDigits_mem (n : Nat) : ∀ d ∈ decimalDigits n, 48 ≤ d ∧ d ≤ 57 :=
  (decimalDigitsAux_spec n n le_rfl).2

/- ### Helper lemmas: hex -/

theorem hexVal_hexDigit : ∀ v, v < 16 → hexVal (hexDigit v) = some v := by decide

theorem hexDigit_mem_lower :
    ∀ v, v < 16 →
      hexDigit v ∈ ([48, 49, 50, 51, 52, 53, 54, 55, 56, 57,
        97, 98, 99, 100, 101, 102] : List Nat) := by decide

theorem hexEncodeBytes_cons (b : Nat) (t : List Nat) :
    hexEncodeBytes (b :: t) = hexDigit (b / 16) :: hexDigit (b % 16) :: hexEncodeBytes t := by
  simp [hexEncodeBytes]

theorem hexDecodeBytes_encode :
    ∀ bs : List Nat, (∀ b ∈ bs, b < 256) → hexDecodeBytes (hexEncodeBytes bs) = some bs := by
  intro bs
  induction bs with
  | nil => intro _; rfl
  | cons b t ih =>
    intro h
    have hb : b < 256 := h b (List.mem_cons_self b t)
    rw [hexEncodeBytes_cons]
    simp only [hexDecodeBytes]
    rw [hexVal_hexDigit _ (by omega), hexVal_hexDigit _ (by omega)]
    rw [ih fun x hx => h x (List.mem_cons_of_mem b hx)]
    show Option.map (fun r => (b / 16 * 16 + b % 16) :: r) (some t) = some (b :: t)
    have hb16 : b / 16 * 16 + b % 16 = b := by omega
    rw [hb16]
    rfl

theorem hexEncodeBytes_mem_lower (bs : List Nat) (h : ∀ b ∈ bs, b < 256) :
    ∀ c ∈ hexEncodeBytes bs,
      c ∈ ([48, 49, 50, 51, 52, 53, 54, 55, 56, 57,
        97, 98, 99, 100, 101, 102] : List Nat) := by
  intro c hc
  simp only [hexEncodeBytes, List.mem_flatMap] at hc
  obtain ⟨b, hb, hcb⟩ := hc
  have := h b hb
  simp only [List.mem_cons, List.not_mem_nil, or_false] at hcb
  rcases hcb with h1 | h1
  · rw [h1]; exact hexDigit_mem_lower _ (by omega)
  · rw [h1]; exact hexDigit_mem_lower _ (by omega)

/- ### Helper lemmas: big-endian bytes -/

theorem natToBeAux_length : ∀ k n, (natToBeAux k n).length = k := by
  intro k
  induction k with
  | zero => intro n; rfl
  | succ m ih => intro n; simp [natToBeAux, ih]

theorem natToBeAux_lt : ∀ k n, ∀ b ∈ natToBeAux k n, b < 256 := by
  intro k
  induction k with
  | zero => intro n b hb; cases hb
  | succ m ih =>
    intro n b hb
    simp only [natToBeAux] at hb
    rcases List.mem_append.mp hb with h | h
    · exact ih _ b h
    · simp only [List.mem_singleton] at h
      omega

theorem beNat_append_last (xs : List Nat) (y : Nat) :
    beNat (xs ++ [y]) = beNat xs * 256 + y := by
  simp [beNat, List.foldl_append]

theorem beNat_natToBeAux : ∀ k n, n < 256 ^ k → beNat (natToBeAux k n) = n := by
  intro k
  induction k with
  | zero =>
    intro n hn
    interval_cases n
    rfl
  | succ m ih =>
    intro n hn
    have hdiv : n / 256 < 256 ^ m := by
      rw [Nat.div_lt_iff_lt_mul (by norm_num)]
      calc n < 256 ^ (m + 1) := hn
        _ = 256 ^ m * 256 := by ring
    simp only [natToBeAux]
    rw [beNat_append_last, ih _ hdiv]
    omega

theorem natToBe32_length (n : Nat) : (natToBe32 n).length = 32 :=
  natToBeAux_length 32 n

theorem natToBe32_lt (n : Nat) : ∀ b ∈ natToBe32 n, b < 256 :=
  natToBeAux_lt 32 n

theorem beNat_natToBe32 (n : Nat) (h : n < 256 ^ 32) : beNat (natToBe32 n) = n :=
  beNat_natToBeAux 32 n h

/- ### Helper lemmas: base64 -/

theorem b64val_b64char : ∀ v, v < 64 → b64val (b64char v) = some v := by decide

theorem b64char_ne_pad (v : Nat) : b64char v ≠ 61 := by
  unfold b64char
  split_ifs <;> omega

theorem b64char_lb (v : Nat) : 43 ≤ b64char v := by
  unfold b64char
  split_ifs <;> omega

theorem base64Encode_lb : ∀ bs : List Nat, ∀ c ∈ base64Encode bs, 43 ≤ c := by
  intro bs
  induction bs using base64Encode.induct with
  | case1 => intro c hc; cases hc
  | case2 a =>
    intro c hc
    simp only [base64Encode, List.mem_cons, List.not_mem_nil, or_false] at hc
    rcases hc with h | h | h | h <;> rw [h] <;> first | exact b64char_lb _ | omega
  | case3 a b =>
    intro c hc
    simp only [base64Encode, List.mem_cons, List.not_mem_nil, or_false] at hc
    rcases hc with h | h | h | h <;> rw [h] <;> first | exact b64char_lb _ | omega
  | case4 a b c rest ih =>
    intro x hx
    simp only [base64Encode, List.mem_cons] at hx
    rcases hx with h | h | h | h | h
    · rw [h]; exact b64char_lb _
    · rw [h]; exact b64char_lb _
    · rw [h]; exact b64char_lb _
    · rw [h]; exact b64char_lb _
    · exact ih x h

theorem base64DecodeRaw_cons4 (a b c d : Nat) (rest : List Nat) (va vb vc vd : Nat)
    (ha : b64val a = some va) (hb : b64val b = some vb)
    (hcp : c ≠ 61) (hc : b64val c = some vc)
    (hdp : d ≠ 61) (hd : b64val d = some vd) :
    base64DecodeRaw (a :: b :: c :: d :: rest)
      = (base64DecodeRaw rest).map fun t =>
          (va * 4 + vb / 16) :: (vb % 16 * 16 + vc / 4) :: (vc % 4 * 64 + vd) :: t := by
  simp [base64DecodeRaw, ha, hb, hc, hd, hcp, hdp]

theorem base64DecodeRaw_pad2 (a b : Nat) (va vb : Nat)
    (ha : b64val a = some va) (hb : b64val b = some vb) :
    base64DecodeRaw [a, b, 61, 61] = some [va * 4 + vb / 16] := by
  simp [base64DecodeRaw, ha, hb]

theorem base64DecodeRaw_pad1 (a b c : Nat) (va vb vc : Nat)
    (ha : b64val a = some va) (hb : b64val b = some vb)
    (hcp : c ≠ 61) (hc : b64val c = some vc) :
    base64DecodeRaw [a, b, c, 61] = some [va * 4 + vb / 16, vb % 16 * 16 + vc / 4] := by
  simp [base64DecodeRaw, ha, hb, hc, hcp]

theorem base64DecodeRaw_encode :
    ∀ bs : List Nat, (∀ b ∈ bs, b < 256) → base64DecodeRaw (base64Encode bs) = some bs := by
  intro bs
  induction bs using base64Encode.induct with
  | case1 => intro _; rfl
  | case2 a =>
    intro h
    have ha : a < 256 := h a (by simp)
    show base64DecodeRaw [b64char (a / 4), b64char (a % 4 * 16), 61, 61] = some [a]
    rw [base64DecodeRaw_pad2 _ _ _ _ (b64val_b64char _ (by omega)) (b64val_b64char _ (by omega))]
    have : a / 4 * 4 + a % 4 * 16 / 16 = a := by omega
    rw [this]
  | case3 a b =>
    intro h
    have ha : a < 256 := h a (by simp)
    have hb : b < 256 := h b (by simp)
    show base64DecodeRaw
        [b64char (a / 4), b64char (a % 4 * 16 + b / 16), b64char (b % 16 * 4), 61] = some [a, b]
    rw [base64DecodeRaw_pad1 _ _ _ _ _ _ (b64val_b64char _ (by omega))
      (b64val_b64char _ (by omega)) (b64char_ne_pad _) (b64val_b64char _ (by omega))]
    have h1 : a / 4 * 4 + (a % 4 * 16 + b / 16) / 16 = a := by omega
    have h2 : (a % 4 * 16 + b / 16) % 16 * 16 + b % 16 * 4 / 4 = b := by omega
    rw [h1, h2]
  | case4 a b c rest ih =>
    intro h
    have ha : a < 256 := h a (by simp)
    have hb : b < 256 := h b (by simp)
    have hc : c < 256 := h c (by simp)
    show base64DecodeRaw (b64char (a / 4) :: b64char (a % 4 * 16 + b / 16) ::
      b64char (b % 16 * 4 + c / 64) :: b64char (c % 64) :: base64Encode rest) = some (a :: b :: c :: rest)
    rw [base64DecodeRaw_cons4 _ _ _ _ _ _ _ _ _ (b64val_b64char _ (by omega))
      (b64val_b64char _ (by omega)) (b64char_ne_pad _) (b64val_b64char _ (by omega))
      (b64char_ne_pad _) (b64val_b64char _ (by omega))]
    rw [ih fun x hx => h x (by simp [hx])]
    have h1 : a / 4 * 4 + (a % 4 * 16 + b / 16) / 16 = a := by omega
    have h2 : (a % 4 * 16 + b / 16) % 16 * 16 + (b % 16 * 4 + c / 64) / 4 = b := by omega
    have h3 : (b % 16 * 4 + c / 64) % 4 * 64 + c % 64 = c := by omega
    rw [h1, h2, h3]
    rfl

theorem base64Decode_encode (bs : List Nat) (h : ∀ b ∈ bs, b < 256) :
    base64Decode (base64Encode bs) = some bs := by
  unfold base64Decode
  have hf : (base64Encode bs).filter (fun c => c != 13 && c != 10) = base64Encode bs := by
    rw [List.filter_eq_self]
    intro c hc
    have := base64Encode_lb bs c hc
    simp only [bne_iff_ne, Bool.and_eq_true, decide_eq_true_eq]
    omega
  rw [hf]
  exact base64DecodeRaw_encode bs h

/- ### Helper lemmas: keystream XOR -/

theorem xorKeystream_length (ks : Nat → Nat) :
    ∀ i ms, (Nip44.xorKeystream ks i ms).length = ms.length := by
  intro i ms
  induction ms generalizing i with
  | nil => rfl
  | cons m t ih => simp [Nip44.xorKeystream, ih]

theorem xorKeystream_involution (ks : Nat → Nat) :
    ∀ i ms, Nip44.xorKeystream ks i (Nip44.xorKeystream ks i ms) = ms := by
  intro i ms
  induction ms generalizing i with
  | nil => rfl
  | cons m t ih =>
    simp only [Nip44.xorKeystream]
    rw [Nat.xor_assoc, Nat.xor_self, Nat.xor_zero, ih]

theorem xorKeystream_lt (ks : Nat → Nat) (hk : ∀ j, ks j < 256) :
    ∀ i ms, (∀ b ∈ ms, b < 256) → ∀ b ∈ Nip44.xorKeystream ks i ms, b < 256 := by
  intro i ms
  induction ms generalizing i with
  | nil => intro _ b hb; cases hb
  | cons m t ih =>
    intro h b hb
    simp only [Nip44.xorKeystream, List.mem_cons] at hb
    rcases hb with hb | hb
    · rw [hb]
      show m ^^^ ks i < 2 ^ 8
      exact Nat.xor_lt_two_pow (h m (by simp)) (hk i)
    · exact ih (i + 1) (fun x hx => h x (by simp [hx])) b hb

/- ### Helper lemmas: the encrypted frame -/

theorem encrypt_ok (ksf : Nip44.Keystream) (msg key nonce : List Nat)
    (hkey : key.length = 32) (hnl : nonce.length = 24) :
    Nip44.Encrypt ksf msg key nonce
      = Except.ok (base64Encode (1 :: nonce ++ Nip44.xorKeystream (ksf key nonce) 0 msg)) := by
  unfold Nip44.Encrypt Nip44.encryptWithNonce
  have h1 : nonce.take 24 = nonce := List.take_of_length_le (by omega)
  rw [if_pos ⟨hkey, Or.inr hnl⟩, hnl, h1]
  simp

theorem decrypt_eq_body (ksf : Nip44.Keystream) (payload key data : List Nat)
    (hdec : base64Decode payload = some data) :
    Nip44.Decrypt ksf payload key
      = (match data with
         | [] => Nip44.GoResult.panic
         | d0 :: _ =>
           if d0 ≠ 1 then Nip44.GoResult.err (Nip44.DecErr.unknownVersion d0)
           else if data.length ≤ 25 then Nip44.GoResult.err (Nip44.DecErr.tooSmall data.length)
           else if key.length = 32 then
             Nip44.GoResult.ok
               (Nip44.xorKeystream (ksf key ((data.drop 1).take 24)) 0 (data.drop 25))
           else Nip44.GoResult.err Nip44.DecErr.cipherInit) := by
  unfold Nip44.Decrypt
  simp only [hdec]
  cases data with
  | nil => rfl
  | cons d0 t => rfl

theorem decrypt_frame (ksf : Nip44.Keystream) (key nonce cipher : List Nat)
    (hkey : key.length = 32) (hnl : nonce.length = 24)
    (hbytes : ∀ b ∈ 1 :: nonce ++ cipher, b < 256) (hcne : cipher ≠ []) :
    Nip44.Decrypt ksf (base64Encode (1 :: nonce ++ cipher)) key
      = Nip44.GoResult.ok (Nip44.xorKeystream (ksf key nonce) 0 cipher) := by
  have hlen : (1 :: nonce ++ cipher).length = 25 + cipher.length := by
    simp [hnl]
    omega
  have hgt : ¬(1 :: nonce ++ cipher).length ≤ 25 := by
    rw [hlen]
    have := List.length_pos.mpr hcne
    omega
  have htake : ((1 :: nonce ++ cipher).drop 1).take 24 = nonce := by
    show (nonce ++ cipher).take 24 = nonce
    rw [← hnl, List.take_left]
  have hdrop : (1 :: nonce ++ cipher).drop 25 = cipher := by
    show (nonce ++ cipher).drop 24 = cipher
    rw [← hnl, List.drop_left]
  rw [decrypt_eq_body ksf _ key _ (base64Decode_encode _ hbytes)]
  show (if (1 : Nat) ≠ 1 then Nip44.GoResult.err (Nip44.DecErr.unknownVersion 1)
      else if (1 :: nonce ++ cipher).length ≤ 25 then
        Nip44.GoResult.err (Nip44.DecErr.tooSmall (1 :: nonce ++ cipher).length)
      else if key.length = 32 then
        Nip44.GoResult.ok (Nip44.xorKeystream
          (ksf key (((1 :: nonce ++ cipher).drop 1).take 24)) 0 ((1 :: nonce ++ cipher).drop 25))
      else Nip44.GoResult.err Nip44.DecErr.cipherInit)
    = Nip44.GoResult.ok (Nip44.xorKeystream (ksf key nonce) 0 cipher)
  rw [if_neg (by simp : ¬(1 : Nat) ≠ 1), if_neg hgt, if_pos hkey, htake, hdrop]

theorem frame_bytes_lt (nonce cipher : List Nat) (hn : ∀ b ∈ nonce, b < 256)
    (hc : ∀ b ∈ cipher, b < 256) : ∀ b ∈ 1 :: nonce ++ cipher, b < 256 := by
  intro b hb
  rcases List.mem_cons.mp hb with h | h
  · omega
  · rcases List.mem_append.mp h with h2 | h2
    · exact hn b h2
    · exact hc b h2

/- ### Claim theorems: the payload codec -/

/-- Claim C1, counterexample: encrypting the empty plaintext under an
all-zero 32-byte key and nonce succeeds, but decrypting the result fails with
the too-small error (the 25-byte frame is rejected), so the round-trip does not
return the empty plaintext. -/
theorem decrypt_encrypt_empty_fails :
    Nip44.Encrypt ksf0 [] key0 nonce0 = Except.ok (base64Encode (1 :: nonce0)) ∧
    Nip44.Decrypt ksf0 (base64Encode (1 :: nonce0)) key0
      = Nip44.GoResult.err (Nip44.DecErr.tooSmall 25) :=
  ⟨rfl, by decide⟩

/-- Claim C1 (amended): for every nonempty plaintext, every 32-byte key, every
24-byte nonce and every byte-valued keystream, decrypting the result of
encrypting returns the plaintext with no error; the empty plaintext is the one
exception, rejected by the decrypt length check. -/
theorem decrypt_encrypt_roundtrip (ksf : Nip44.Keystream) (msg key nonce : List Nat)
    (hm : ∀ b ∈ msg, b < 256) (hn : ∀ b ∈ nonce, b < 256)
    (hks : ∀ k n i, ksf k n i < 256)
    (hkey : key.length = 32) (hnl : nonce.length = 24) (hne : msg ≠ []) :
    ∃ s, Nip44.Encrypt ksf msg key nonce = Except.ok s ∧
      Nip44.Decrypt ksf s key = Nip44.GoResult.ok msg := by
  refine ⟨_, encrypt_ok ksf msg key nonce hkey hnl, ?_⟩
  have hcb : ∀ b ∈ Nip44.xorKeystream (ksf key nonce) 0 msg, b < 256 :=
    xorKeystream_lt _ (hks key nonce) 0 msg hm
  have hcne : Nip44.xorKeystream (ksf key nonce) 0 msg ≠ [] := by
    intro h
    apply hne
    have hl := xorKeystream_length (ksf key nonce) 0 msg
    rw [h] at hl
    exact List.eq_nil_of_length_eq_zero hl.symm
  rw [decrypt_frame ksf key nonce _ hkey hnl (frame_bytes_lt nonce _ hn hcb) hcne,
    xorKeystream_involution]

/-- Claim C1, witness: the round-trip theorem applied to the two-byte message
`hi`, the all-zero key, nonce and keystream. -/
theorem decrypt_encrypt_roundtrip_witness :
    ([104, 105] : List Nat) ≠ [] ∧
    ∃ s, Nip44.Encrypt ksf0 [104, 105] key0 nonce0 = Except.ok s ∧
      Nip44.Decrypt ksf0 s key0 = Nip44.GoResult.ok [104, 105] :=
  ⟨by decide,
   decrypt_encrypt_roundtrip ksf0 [104, 105] key0 nonce0 (by decide) (by decide)
     (by intro k n i; norm_num [ksf0]) (by decide) (by decide) (by decide)⟩

/-- Claim C2 (code bug): the empty payload string base64-decodes to an empty
byte slice without error, and `Decrypt` then reads `data[0]` before any length
check — an index-out-of-range panic, not a returned error value. -/
theorem decrypt_empty_payload_panics :
    base64Decode [] = some [] ∧
      Nip44.Decrypt ksf0 [] key0 = Nip44.GoResult.panic := by decide

/-- Claim C6: for every plaintext, 32-byte key, 24-byte nonce and byte-valued
keystream, the encrypt output base64-decodes to the version byte 1, followed by
the 24-byte nonce, followed by a ciphertext whose length equals the plaintext
length. -/
theorem encrypt_frame_layout (ksf : Nip44.Keystream) (msg key nonce : List Nat)
    (hm : ∀ b ∈ msg, b < 256) (hn : ∀ b ∈ nonce, b < 256)
    (hks : ∀ k n i, ksf k n i < 256)
    (hkey : key.length = 32) (hnl : nonce.length = 24) :
    ∃ s cipher, Nip44.Encrypt ksf msg key nonce = Except.ok s ∧
      base64Decode s = some (1 :: nonce ++ cipher) ∧
      nonce.length = 24 ∧ cipher.length = msg.length := by
  have hcb : ∀ b ∈ Nip44.xorKeystream (ksf key nonce) 0 msg, b < 256 :=
    xorKeystream_lt _ (hks key nonce) 0 msg hm
  exact ⟨_, Nip44.xorKeystream (ksf key nonce) 0 msg,
    encrypt_ok ksf msg key nonce hkey hnl,
    base64Decode_encode _ (frame_bytes_lt nonce _ hn hcb), hnl,
    xorKeystream_length _ _ _⟩

/-- Claim C6, witness: the frame-layout theorem applied to the message `hi`,
the all-zero key, nonce and keystream. -/
theorem encrypt_frame_layout_witness :
    (key0.length = 32) ∧
    ∃ s cipher, Nip44.Encrypt ksf0 [104, 105] key0 nonce0 = Except.ok s ∧
      base64Decode s = some (1 :: nonce0 ++ cipher) ∧
      nonce0.length = 24 ∧ cipher.length = ([104, 105] : List Nat).length :=
  ⟨by decide,
   encrypt_frame_layout ksf0 [104, 105] key0 nonce0 (by decide) (by decide)
     (by intro k n i; norm_num [ksf0]) (by decide) (by decide)⟩

/-- Claim C7, counterexample: a payload decoding to the single byte 2 has
decoded length 1 ≤ 25, yet `Decrypt` fails with the unknown-version error, not
the too-small error — the version check runs first. -/
theorem decrypt_version_error_precedence :
    base64Decode (base64Encode [2]) = some [2] ∧
    ([2] : List Nat).length ≤ 25 ∧
    Nip44.Decrypt ksf0 (base64Encode [2]) key0
      = Nip44.GoResult.err (Nip44.DecErr.unknownVersion 2) ∧
    Nip44.Decrypt ksf0 (base64Encode [2]) key0
      ≠ Nip44.GoResult.err (Nip44.DecErr.tooSmall 1) := by decide

/-- Claim C7 (amended): for every base64-decodable payload with nonempty
decoding, `Decrypt` fails with the unknown-version error exactly when the first
decoded byte is not 1; it fails with the too-small error exactly when the first
byte is 1 and the decoded length is at most 25 (the version check takes
precedence); otherwise, for a 32-byte key, it extracts the nonce (bytes 1–24)
and ciphertext (bytes 25–end) and returns the XOR-recovered plaintext. -/
theorem decrypt_error_conditions (ksf : Nip44.Keystream) (payload key data : List Nat)
    (hdec : base64Decode payload = some data) (hne : data ≠ []) :
    ((∃ v, Nip44.Decrypt ksf payload key = Nip44.GoResult.err (Nip44.DecErr.unknownVersion v))
        ↔ data.head? ≠ some 1)
    ∧ (Nip44.Decrypt ksf payload key = Nip44.GoResult.err (Nip44.DecErr.tooSmall data.length)
        ↔ data.head? = some 1 ∧ data.length ≤ 25)
    ∧ (data.head? = some 1 → 25 < data.length → key.length = 32 →
        Nip44.Decrypt ksf payload key = Nip44.GoResult.ok
          (Nip44.xorKeystream (ksf key ((data.drop 1).take 24)) 0 (data.drop 25))) := by
  rw [decrypt_eq_body ksf payload key data hdec]
  cases data with
  | nil => exact absurd rfl hne
  | cons d0 t =>
    simp only [List.head?_cons]
    by_cases hd : d0 = 1
    · subst hd
      rw [if_neg (by simp : ¬(1 : Nat) ≠ 1)]
      by_cases hl : (1 :: t : List Nat).length ≤ 25
      · rw [if_pos hl]
        refine ⟨⟨?_, ?_⟩, ⟨?_, ?_⟩, ?_⟩
        · rintro ⟨v, hv⟩; simp at hv
        · intro h; exact absurd rfl h
        · intro _; exact ⟨rfl, hl⟩
        · intro _; rfl
        · intro _ h25 _; exact absurd hl (by omega)
      · rw [if_neg hl]
        by_cases hk : key.length = 32
        · rw [if_pos hk]
          refine ⟨⟨?_, ?_⟩, ⟨?_, ?_⟩, ?_⟩
          · rintro ⟨v, hv⟩; simp at hv
          · intro h; exact absurd rfl h
          · intro h; simp at h
          · rintro ⟨_, h⟩; exact absurd h hl
          · intro _ _ _; rfl
        · rw [if_neg hk]
          refine ⟨⟨?_, ?_⟩, ⟨?_, ?_⟩, ?_⟩
          · rintro ⟨v, hv⟩; simp at hv
          · intro h; exact absurd rfl h
          · intro h; simp at h
          · rintro ⟨_, h⟩; exact absurd h hl
          · intro _ _ hk32; exact absurd hk32 hk
    · rw [if_pos (fun h => hd h)]
      refine ⟨⟨?_, ?_⟩, ⟨?_, ?_⟩, ?_⟩
      · intro _
        simp only [ne_eq, Option.some.injEq]
        exact hd
      · intro _; exact ⟨d0, rfl⟩
      · intro h; simp at h
      · rintro ⟨h, _⟩
        injection h with h
        exact absurd h hd
      · intro h _ _
        injection h with h
        exact absurd h hd

/-- Claim C7, witness: a well-formed 26-byte frame (version 1, zero nonce, one
ciphertext byte) decrypts to the XOR-recovered plaintext under the all-zero key
and keystream. -/
theorem decrypt_error_conditions_witness :
    Nip44.Decrypt ksf0 (base64Encode (1 :: List.replicate 25 0)) key0
      = Nip44.GoResult.ok (Nip44.xorKeystream
          (ksf0 key0 (((1 :: List.replicate 25 0 : List Nat).drop 1).take 24)) 0
          ((1 :: List.replicate 25 0 : List Nat).drop 25)) :=
  (decrypt_error_conditions ksf0 (base64Encode (1 :: List.replicate 25 0)) key0
    (1 :: List.replicate 25 0) (by decide) (by decide)).2.2 (by decide) (by decide) (by decide)

/- ### Helper lemmas: the nibble comparison loop -/

theorem checkNibbles_spec :
    ∀ h id : List Nat, id.length = 2 * h.length →
      (checkNibbles h id = some true ↔ hexEncodeBytes h = id) ∧ checkNibbles h id ≠ none := by
  intro h
  induction h with
  | nil =>
    intro id hlen
    have : id = [] := List.eq_nil_of_length_eq_zero (by simpa using hlen)
    subst this
    exact ⟨by simp [checkNibbles, hexEncodeBytes], by simp [checkNibbles]⟩
  | cons b hs ih =>
    intro id hlen
    rcases id with _ | ⟨c1, _ | ⟨c2, rest⟩⟩
    · simp only [List.length_nil, List.length_cons] at hlen
      omega
    · simp only [List.length_cons, List.length_nil] at hlen
      omega
    · have hrest : rest.length = 2 * hs.length := by
        simp only [List.length_cons] at hlen
        omega
      obtain ⟨ihiff, ihne⟩ := ih rest hrest
      rw [hexEncodeBytes_cons]
      by_cases h1 : hexDigit (b / 16) = c1
      · by_cases h2 : hexDigit (b % 16) = c2
        · have hstep : checkNibbles (b :: hs) (c1 :: c2 :: rest) = checkNibbles hs rest := by
            simp [checkNibbles, h1, h2]
          rw [hstep, h1, h2]
          refine ⟨?_, ihne⟩
          rw [ihiff]
          constructor
          · intro hx
            rw [hx]
          · intro hx
            simpa using hx
        · have hstep : checkNibbles (b :: hs) (c1 :: c2 :: rest) = some false := by
            simp [checkNibbles, h1, h2]
          rw [hstep]
          refine ⟨?_, by simp⟩
          constructor
          · intro hx
            exact absurd hx (by simp)
          · intro hx
            simp only [List.cons.injEq] at hx
            exact absurd hx.2.1 h2
      · have hstep : checkNibbles (b :: hs) (c1 :: c2 :: rest) = some false := by
          simp [checkNibbles, h1]
        rw [hstep]
        refine ⟨?_, by simp⟩
        constructor
        · intro hx
          exact absurd hx (by simp)
        · intro hx
          simp only [List.cons.injEq] at hx
          exact absurd hx.1 h1

/- ### Claim theorems: event identifier and canonicalization -/

/-- Claim C3: `GetID` is the lowercase-hex rendering of the digest of the
constant prefix (`0x19` then `Ethereum Signed Message:` and a newline),
immediately followed by the decimal byte count of the canonical bytes with no
separator, immediately followed by the canonical bytes.  The second conjunct
pins the rendering to the lowercase hex alphabet, the remaining two pin the
length field to the decimal numeral of the byte count. -/
theorem getID_hash_input_layout (keccak : List Nat → List Nat) (evt : Event)
    (hk : ∀ b ∈ keccak (hashInput evt), b < 256) :
    GetID keccak evt
        = hexEncodeBytes (keccak
            (msgHeader ++ decimalDigits (Serialize evt).length ++ Serialize evt))
      ∧ (∀ c ∈ GetID keccak evt,
          c ∈ ([48, 49, 50, 51, 52, 53, 54, 55, 56, 57,
            97, 98, 99, 100, 101, 102] : List Nat))
      ∧ decimalValue (decimalDigits (Serialize evt).length) = (Serialize evt).length
      ∧ (∀ d ∈ decimalDigits (Serialize evt).length, 48 ≤ d ∧ d ≤ 57) :=
  ⟨rfl, hexEncodeBytes_mem_lower _ hk, decimalValue_decimalDigits _, decimalDigits_mem _⟩

/-- Claim C3, witness: the layout theorem applied to the example event and the
constant all-zero digest function. -/
theorem getID_hash_input_layout_witness :
    GetID keccak0 evt5
        = hexEncodeBytes (keccak0
            (msgHeader ++ decimalDigits (Serialize evt5).length ++ Serialize evt5))
      ∧ (∀ c ∈ GetID keccak0 evt5,
          c ∈ ([48, 49, 50, 51, 52, 53, 54, 55, 56, 57,
            97, 98, 99, 100, 101, 102] : List Nat))
      ∧ decimalValue (decimalDigits (Serialize evt5).length) = (Serialize evt5).length
      ∧ (∀ d ∈ decimalDigits (Serialize evt5).length, 48 ≤ d ∧ d ≤ 57) :=
  getID_hash_input_layout keccak0 evt5
    (fun b hb => by rw [List.eq_of_mem_replicate hb]; norm_num)

/-- Claim C4, counterexample: an event whose stored ID is the correct 64 hex
characters followed by two junk bytes.  `CheckID` compares only the first 64
bytes and returns true, while `GetID` (64 characters) differs from the stored
66-byte ID, so the nibble loop is not equivalent to the string equality. -/
theorem checkID_trailing_junk_accepted :
    CheckID keccak0 evtJunk = some true ∧ GetID keccak0 evtJunk ≠ evtJunk.ID := by decide

/-- Claim C4 (amended): for every event whose stored ID is exactly 64 bytes
(and any 32-byte digest), `CheckID` returns without panicking and answers true
precisely when `GetID` of the event equals the stored ID; for other ID lengths
the loop either panics (shorter) or ignores the trailing bytes (longer). -/
theorem checkID_iff_getID_eq (keccak : List Nat → List Nat) (evt : Event)
    (hk : (keccak (hashInput evt)).length = 32) (hid : evt.ID.length = 64) :
    (CheckID keccak evt = some true ↔ GetID keccak evt = evt.ID)
      ∧ CheckID keccak evt ≠ none :=
  checkNibbles_spec (keccak (hashInput evt)) evt.ID (by rw [hk, hid])

/-- Claim C4, witness: the equivalence applied to the example event carrying
its correct ID under the all-zero digest function. -/
theorem checkID_iff_getID_eq_witness :
    evtGood.ID.length = 64 ∧
    ((CheckID keccak0 evtGood = some true ↔ GetID keccak0 evtGood = evtGood.ID)
      ∧ CheckID keccak0 evtGood ≠ none) :=
  ⟨by decide, checkID_iff_getID_eq keccak0 evtGood (by decide) (by decide)⟩

/-- Claim C5: the canonical serialization of the example event (pubkey of 64
`a`, created_at 1700000000, kind 1, tags `[["e","abc"]]`, content `hi`) is
exactly the bytes of `[0,"aaaa…a",1700000000,1,[["e","abc"]],"hi"]`.
`Serialize` is a pure function of the five hashed fields, so the bytes are
identical on every call. -/
theorem serialize_example_bytes : Serialize evt5 = serial5 := by decide

/-- Claim C10: in the canonical serialization, the pubkey bytes are appended
verbatim — the canonical bytes are the header `[0,"`, the pubkey unchanged
(whatever bytes it holds, including quotes, backslashes, and control
characters), then `",` and the remaining fields, where only the tag items and
the content pass through the escaping routine. -/
theorem serialize_pubkey_verbatim (evt : Event) :
    Serialize evt
        = [91, 48, 44, 34] ++ evt.PubKey ++ [34, 44] ++ intDecimal evt.CreatedAt ++ [44] ++
            intDecimal evt.Kind ++ [44] ++ serializeTags evt.Tags ++ [44] ++
            escString evt.Content ++ [93]
      ∧ (Serialize evt).take 4 = [91, 48, 44, 34]
      ∧ ((Serialize evt).drop 4).take evt.PubKey.length = evt.PubKey := by
  have hs : Serialize evt
      = [91, 48, 44, 34] ++ (evt.PubKey ++ ([34, 44] ++ intDecimal evt.CreatedAt ++ [44] ++
          intDecimal evt.Kind ++ [44] ++ serializeTags evt.Tags ++ [44] ++
          escString evt.Content ++ [93])) := by
    simp [Serialize, serializeEventInto]
  refine ⟨by simp [Serialize, serializeEventInto], ?_, ?_⟩
  · rw [hs]
    rfl
  · rw [hs]
    show (evt.PubKey ++ _).take evt.PubKey.length = evt.PubKey
    exact List.take_left ..

/- ### Helper lemmas: scalar multiplication and the shared secret -/

theorem secpP_lt_pow : Nip44.secpP < 256 ^ 32 := by norm_num [Nip44.secpP]

theorem secpN_lt_pow : Nip44.secpN < 256 ^ 32 := by norm_num [Nip44.secpN]

theorem nsmul_neg_eq {M : Type} [AddCommGroup M] (n : Nat) (x : M) :
    n • (-x) = -(n • x) := by
  induction n with
  | zero => simp
  | succ k ih => rw [succ_nsmul, succ_nsmul, ih, neg_add]

theorem mul_nsmul_eq {M : Type} [AddCommGroup M] (m n : Nat) (x : M) :
    (m * n) • x = m • (n • x) := by
  induction m with
  | zero => simp
  | succ k ih => rw [Nat.succ_mul, add_nsmul, ih, succ_nsmul]

theorem xonly_smul_symm {Point : Type} [AddCommGroup Point] (xonly : Point → Nat)
    (hneg : ∀ P : Point, xonly (-P) = xonly P) (G : Point) (a b : Nat) (Q R : Point)
    (hQ : Q = b • G ∨ Q = -(b • G)) (hR : R = a • G ∨ R = -(a • G)) :
    xonly (a • Q) = xonly (b • R) := by
  have key : ∀ m n : Nat, xonly (m • (n • G)) = xonly (n • (m • G)) := by
    intro m n
    rw [← mul_nsmul_eq, ← mul_nsmul_eq, Nat.mul_comm]
  rcases hQ with h | h <;> rcases hR with g | g <;> subst h <;> subst g
  · exact key a b
  · rw [nsmul_neg_eq, hneg]
    exact key a b
  · rw [nsmul_neg_eq, hneg]
    exact key a b
  · rw [nsmul_neg_eq, hneg, nsmul_neg_eq, hneg]
    exact key a b

theorem hexDecodeBytes_02 (s : List Nat) :
    hexDecodeBytes ([48, 50] ++ s) = (hexDecodeBytes s).map fun t => 2 :: t := by
  show hexDecodeBytes (48 :: 50 :: s) = _
  simp only [hexDecodeBytes]
  rw [show hexVal 48 = some 0 from rfl, show hexVal 50 = some 2 from rfl]

theorem computeSharedSecret_eq_body {Point : Type} [AddCommGroup Point]
    (xonly : Point → Nat) (liftEven : Nat → Option Point) (sha256f : List Nat → List Nat)
    (pub sk skB pubB : List Nat)
    (hsk : hexDecodeBytes sk = some skB)
    (hp : hexDecodeBytes ([48, 50] ++ pub) = some pubB) :
    Nip44.ComputeSharedSecret xonly liftEven sha256f pub sk
      = (match Nip44.ParsePubKey liftEven pubB with
         | none => Except.error Nip44.SecretErr.parsePub
         | some P => Except.ok (sha256f (natToBe32 (xonly
             ((beNat (skB.take 32) % Nip44.secpN) • P))))) := by
  unfold Nip44.ComputeSharedSecret
  simp only [hsk, hp]

theorem computeSharedSecret_eval {Point : Type} [AddCommGroup Point]
    (xonly : Point → Nat) (liftEven : Nat → Option Point) (sha256f : List Nat → List Nat)
    (x d : Nat) (Q : Point) (hx : x < Nip44.secpP) (hd : d < 256 ^ 32)
    (hlq : liftEven x = some Q) :
    Nip44.ComputeSharedSecret xonly liftEven sha256f
        (hexEncodeBytes (natToBe32 x)) (hexEncodeBytes (natToBe32 d))
      = Except.ok (sha256f (natToBe32 (xonly ((d % Nip44.secpN) • Q)))) := by
  have hsk := hexDecodeBytes_encode (natToBe32 d) (natToBe32_lt d)
  have hpub2 : hexDecodeBytes ([48, 50] ++ hexEncodeBytes (natToBe32 x))
      = some (2 :: natToBe32 x) := by
    rw [hexDecodeBytes_02, hexDecodeBytes_encode _ (natToBe32_lt x)]
    rfl
  have htake : (natToBe32 d).take 32 = natToBe32 d :=
    List.take_of_length_le (by rw [natToBe32_length])
  have hbe : beNat (natToBe32 d) = d := beNat_natToBe32 d hd
  have hbex : beNat (natToBe32 x) = x := beNat_natToBe32 x (lt_trans hx secpP_lt_pow)
  have hparse : Nip44.ParsePubKey liftEven (2 :: natToBe32 x) = some Q := by
    unfold Nip44.ParsePubKey
    rw [if_pos (by simp [natToBe32_length])]
    show (if beNat (natToBe32 x) < Nip44.secpP then liftEven (beNat (natToBe32 x)) else none)
      = some Q
    rw [hbex, if_pos hx, hlq]
  rw [computeSharedSecret_eq_body xonly liftEven sha256f (hexEncodeBytes (natToBe32 x))
    (hexEncodeBytes (natToBe32 d)) (natToBe32 d) (2 :: natToBe32 x) hsk hpub2]
  simp only [hparse]
  rw [htake, hbe]

/- ### Claim theorems: shared secret -/

/-- Claim C8: for every valid key pair — scalars in `[1, N-1]` with x-only
public keys — deriving with the roles swapped yields the same 32-byte secret.
The secp256k1 group is abstracted as any additive commutative group whose
x-coordinate projection is negation-invariant (the library facts stated as
hypotheses); the equality then follows from commutativity of scalar
multiplication, covering both parities of the lifted points. -/
theorem computeSharedSecret_symmetric {Point : Type} [AddCommGroup Point]
    (xonly : Point → Nat) (liftEven : Nat → Option Point) (sha256f : List Nat → List Nat)
    (G : Point)
    (hneg : ∀ P : Point, xonly (-P) = xonly P)
    (hlt : ∀ P : Point, xonly P < Nip44.secpP)
    (hlift : ∀ P : Point, liftEven (xonly P) = some P ∨ liftEven (xonly P) = some (-P))
    (hsha : ∀ s : List Nat, (sha256f s).length = 32)
    (a b : Nat) (ha0 : 0 < a) (haN : a < Nip44.secpN) (hb0 : 0 < b) (hbN : b < Nip44.secpN)
    (pubA pubB skA skB : List Nat)
    (hpa : pubA = hexEncodeBytes (natToBe32 (xonly (a • G))))
    (hpb : pubB = hexEncodeBytes (natToBe32 (xonly (b • G))))
    (hsa : skA = hexEncodeBytes (natToBe32 a))
    (hsb : skB = hexEncodeBytes (natToBe32 b)) :
    ∃ s, Nip44.ComputeSharedSecret xonly liftEven sha256f pubB skA = Except.ok s
      ∧ Nip44.ComputeSharedSecret xonly liftEven sha256f pubA skB = Except.ok s
      ∧ s.length = 32 := by
  rw [hpa, hpb, hsa, hsb]
  have haN' : a < 256 ^ 32 := lt_trans haN secpN_lt_pow
  have hbN' : b < 256 ^ 32 := lt_trans hbN secpN_lt_pow
  rcases hlift (b • G) with hQ | hQ <;> rcases hlift (a • G) with hR | hR
  · rw [computeSharedSecret_eval xonly liftEven sha256f _ a _ (hlt _) haN' hQ,
      computeSharedSecret_eval xonly liftEven sha256f _ b _ (hlt _) hbN' hR,
      Nat.mod_eq_of_lt haN, Nat.mod_eq_of_lt hbN]
    refine ⟨_, rfl, ?_, hsha _⟩
    rw [← xonly_smul_symm xonly hneg G a b (b • G) (a • G) (Or.inl rfl) (Or.inl rfl)]
  · rw [computeSharedSecret_eval xonly liftEven sha256f _ a _ (hlt _) haN' hQ,
      computeSharedSecret_eval xonly liftEven sha256f _ b _ (hlt _) hbN' hR,
      Nat.mod_eq_of_lt haN, Nat.mod_eq_of_lt hbN]
    refine ⟨_, rfl, ?_, hsha _⟩
    rw [← xonly_smul_symm xonly hneg G a b (b • G) (-(a • G)) (Or.inl rfl) (Or.inr rfl)]
  · rw [computeSharedSecret_eval xonly liftEven sha256f _ a _ (hlt _) haN' hQ,
      computeSharedSecret_eval xonly liftEven sha256f _ b _ (hlt _) hbN' hR,
      Nat.mod_eq_of_lt haN, Nat.mod_eq_of_lt hbN]
    refine ⟨_, rfl, ?_, hsha _⟩
    rw [← xonly_smul_symm xonly hneg G a b (-(b • G)) (a • G) (Or.inr rfl) (Or.inl rfl)]
  · rw [computeSharedSecret_eval xonly liftEven sha256f _ a _ (hlt _) haN' hQ,
      computeSharedSecret_eval xonly liftEven sha256f _ b _ (hlt _) hbN' hR,
      Nat.mod_eq_of_lt haN, Nat.mod_eq_of_lt hbN]
    refine ⟨_, rfl, ?_, hsha _⟩
    rw [← xonly_smul_symm xonly hneg G a b (-(b • G)) (-(a • G)) (Or.inr rfl) (Or.inr rfl)]

/-- Claim C8, witness: the symmetry theorem instantiated at the concrete
stand-in group `ZMod 7` with scalars 1 and 2. -/
theorem computeSharedSecret_symmetric_witness :
    (0 : Nat) < 1 ∧ (1 : Nat) < Nip44.secpN ∧ (0 : Nat) < 2 ∧ (2 : Nat) < Nip44.secpN ∧
    ∃ s, Nip44.ComputeSharedSecret xonly7 lift7 sha0 pubB7 skA7 = Except.ok s
      ∧ Nip44.ComputeSharedSecret xonly7 lift7 sha0 pubA7 skB7 = Except.ok s
      ∧ s.length = 32 :=
  ⟨by decide, by decide, by decide, by decide,
   computeSharedSecret_symmetric xonly7 lift7 sha0 G7 (by decide) (by decide) (by decide)
     (fun _ => rfl) 1 2 (by decide) (by decide) (by decide) (by decide)
     pubA7 pubB7 skA7 skB7 rfl rfl rfl rfl⟩

/-- Claim C9, counterexample: a private key hex string of exactly 64 hex
characters whose value is the group order N — outside the valid scalar range —
is not rejected: `btcec.PrivKeyFromBytes` reduces it modulo N (to the scalar
0) and the derivation succeeds, returning an ok secret instead of the
InvalidKeyError the claim requires. -/
theorem computeSharedSecret_accepts_out_of_range_sk :
    Nip44.ComputeSharedSecret xonly7 lift7 sha0 pub2g skNg
        = Except.ok (sha0 (natToBe32 (xonly7 (0 : ZMod 7))))
      ∧ ∀ e, Nip44.ComputeSharedSecret xonly7 lift7 sha0 pub2g skNg ≠ Except.error e := by
  have h2p : (2 : Nat) < Nip44.secpP := by norm_num [Nip44.secpP]
  have hl2 : lift7 2 = some ((2 : Nat) : ZMod 7) := by decide
  have heval := computeSharedSecret_eval xonly7 lift7 sha0 2 Nip44.secpN
    ((2 : Nat) : ZMod 7) h2p secpN_lt_pow hl2
  rw [Nat.mod_self, zero_nsmul] at heval
  have heval2 : Nip44.ComputeSharedSecret xonly7 lift7 sha0 pub2g skNg
      = Except.ok (sha0 (natToBe32 (xonly7 (0 : ZMod 7)))) := heval
  constructor
  · exact heval2
  · intro e h
    rw [heval2] at h
    cases h

/-- Claim C9 (amended): `ComputeSharedSecret` returns the sender-decode error
exactly when the private key hex is malformed, the receiver-decode error
exactly when the private key decodes but the `02`-prefixed public key hex does
not, and the parse error exactly when both decode but the public key bytes are
not a 33-byte `02 ‖ x` encoding with `x` below the field prime and on the
curve.  The private key value is never range-checked: any decodable hex of any
length is reduced modulo the group order and accepted, so the derivation
succeeds whenever the public key parses. -/
theorem computeSharedSecret_error_conditions {Point : Type} [AddCommGroup Point]
    (xonly : Point → Nat) (liftEven : Nat → Option Point) (sha256f : List Nat → List Nat)
    (pub sk : List Nat) :
    (Nip44.ComputeSharedSecret xonly liftEven sha256f pub sk
        = Except.error Nip44.SecretErr.decodeSk ↔ hexDecodeBytes sk = none)
    ∧ (Nip44.ComputeSharedSecret xonly liftEven sha256f pub sk
        = Except.error Nip44.SecretErr.decodePub
        ↔ hexDecodeBytes sk ≠ none ∧ hexDecodeBytes ([48, 50] ++ pub) = none)
    ∧ (Nip44.ComputeSharedSecret xonly liftEven sha256f pub sk
        = Except.error Nip44.SecretErr.parsePub
        ↔ hexDecodeBytes sk ≠ none ∧
          ∃ pubBytes, hexDecodeBytes ([48, 50] ++ pub) = some pubBytes ∧
            Nip44.ParsePubKey liftEven pubBytes = none)
    ∧ (∀ skBytes pubBytes P, hexDecodeBytes sk = some skBytes →
        hexDecodeBytes ([48, 50] ++ pub) = some pubBytes →
        Nip44.ParsePubKey liftEven pubBytes = some P →
        Nip44.ComputeSharedSecret xonly liftEven sha256f pub sk
          = Except.ok (sha256f (natToBe32 (xonly
              ((beNat (skBytes.take 32) % Nip44.secpN) • P))))) := by
  unfold Nip44.ComputeSharedSecret
  rcases hsk : hexDecodeBytes sk with _ | skB
  · simp [hsk]
  · rcases hp : hexDecodeBytes ([48, 50] ++ pub) with _ | pubB
    · simp [hsk, hp]
    · rcases hq : Nip44.ParsePubKey liftEven pubB with _ | P
      · simp only [hsk, hp, hq]
        simp [hsk, hp, hq]
        intro skBytes pubBytes P h2 h3
        rw [← h3, hq]
        simp
      · simp only [hsk, hp, hq]
        simp [hsk, hp, hq]
        intro skBytes pubBytes P2 h1 h2 h3
        rw [← h2, hq] at h3
        injection h3 with h3
        rw [h1, h3]

/-- Claim C9, witness: the error characterization applied at a malformed
private key (`zz`, not hex), giving the sender-decode error. -/
theorem computeSharedSecret_error_conditions_witness :
    Nip44.ComputeSharedSecret xonly7 lift7 sha0 pub2g [122, 122]
      = Except.error Nip44.SecretErr.decodeSk :=
  (computeSharedSecret_error_conditions xonly7 lift7 sha0 pub2g [122, 122]).1.mpr (by decide)
